import Mathlib

/-!
Shallow embedding of `src/lu.cpp` (class `LUMatrix`): in-place LU
decomposition with relative (row-scaled) partial pivoting.

Matrices are modelled as total functions `ℕ → ℕ → ℚ` (exact arithmetic in
place of C++ `double`); the decomposition only ever reads indices below the
dimension `n`.  Loops of the source are modelled as folds / structural
recursion over `List.range'` index lists, mutation as functional update,
and thrown `LUMatrixException`s as explicit error values.
-/

set_option allowUnsafeReducibility true in
attribute [semireducible] Rat.mul Rat.add Rat.sub Rat.neg Rat.inv Rat.div

namespace LU

/-- Error codes of `LUMatrixException` (`src/lu.cpp`, lines 14-22). -/
inductive Err
  | invalidDimension
  | indexOutOfBounds
  | rowIndexOutOfBounds
  | linearlyDependentRow
  | badInput
deriving DecidableEq, Repr

/-- A matrix: row `i`, column `j`. -/
abbrev Mat := ℕ → ℕ → ℚ

/-- Functional update of a single matrix entry. -/
def updMat (m : Mat) (i j : ℕ) (v : ℚ) : Mat :=
  fun a b => if a = i ∧ b = j then v else m a b

/-- `LUMatrix::rswap` (lines 190-196): exchange the row handles `i` and `j`. -/
def rswap (m : Mat) (i j : ℕ) : Mat :=
  fun a => if a = i then m j else if a = j then m i else m a

/-- The inner `row_max` accumulation of `LUMatrix::index_best`
(lines 205-212): starting from `a`, raise the accumulator to `|f j|`
whenever `|f j|` strictly exceeds it, over the index list `l`. -/
def absMaxFold (f : ℕ → ℚ) (l : List ℕ) (a : ℚ) : ℚ :=
  l.foldl (fun acc j => if |f j| > acc then |f j| else acc) a

/-- `row_max` for row `i` at pivot column `p` (lines 205-212): initialised
to `|m i p|`, then folded over columns `j ∈ [p, n)`. -/
def rowMax (m : Mat) (p n i : ℕ) : ℚ :=
  absMaxFold (m i) (List.range' p (n - p)) |m i p|

/-- The row loop of `LUMatrix::index_best` (lines 203-222), carrying the
running winner `index` and running best ratio `best`.  A scanned row whose
`row_max` falls below the tolerance throws error 4
(`linearlyDependentRow`); otherwise a strictly larger ratio
`|m i p| / row_max` replaces the winner. -/
def index_best_loop (m : Mat) (tol : ℚ) (p n : ℕ) :
    List ℕ → ℕ → ℚ → Except Err ℕ
  | [], index, _ => .ok index
  | i :: rest, index, best =>
    if rowMax m p n i < tol then .error .linearlyDependentRow
    else if |m i p| / rowMax m p n i > best then
      index_best_loop m tol p n rest i |m i p / rowMax m p n i|
    else
      index_best_loop m tol p n rest index best

/-- `LUMatrix::index_best` (lines 198-224): scan rows `i ∈ [p, n)` starting
from winner `p` and best ratio `0`. -/
def index_best (m : Mat) (tol : ℚ) (p n : ℕ) : Except Err ℕ :=
  index_best_loop m tol p n (List.range' p (n - p)) p 0

/-- The ratio `|m i p| / row_max` that `index_best` compares (line 217). -/
def ratioOf (m : Mat) (p n i : ℕ) : ℚ :=
  |m i p| / rowMax m p n i

/-- One elimination row of `LUMatrix::decompose` (lines 102-110): for row
`r` below pivot `pivot`, compute `c = m r pivot / m pivot pivot`, subtract
`c` times the pivot row from columns `(pivot, n)`, then store `c` at
`(r, pivot)`. -/
def elimRow (n pivot r : ℕ) (m : Mat) : Mat :=
  updMat
    ((List.range' (pivot + 1) (n - (pivot + 1))).foldl
      (fun acc col =>
        updMat acc r col (acc r col - m r pivot / m pivot pivot * acc pivot col))
      m)
    r pivot (m r pivot / m pivot pivot)

/-- The elimination loop over rows `(pivot, n)` (lines 102-110). -/
def elimStep (n pivot : ℕ) (m : Mat) : Mat :=
  (List.range' (pivot + 1) (n - (pivot + 1))).foldl
    (fun acc r => elimRow n pivot r acc) m

/-- Exchange of two entries of the `_order` permutation buffer
(lines 96-98). -/
def oswap (f : ℕ → ℕ) (i j : ℕ) : ℕ → ℕ :=
  fun a => if a = i then f j else if a = j then f i else f a

/-- The mutable state of an `LUMatrix` during `decompose`: the element
grid `_matrix`, the permutation buffer `_order` and the counter
`_swaps`. -/
structure St where
  matrix : Mat
  order : ℕ → ℕ
  swaps : ℕ

/-- One iteration of the pivot loop of `LUMatrix::decompose`
(lines 89-111): select the pivot row; if different from the current pivot
position, swap the rows and the permutation entries and bump `_swaps`;
then eliminate below the pivot.  A thrown error propagates. -/
def pivotStep (tol : ℚ) (n pivot : ℕ) (s : St) : Except Err St :=
  match index_best s.matrix tol pivot n with
  | .error e => .error e
  | .ok swap =>
    let s1 := if swap ≠ pivot then
        { matrix := rswap s.matrix pivot swap,
          order := oswap s.order pivot swap,
          swaps := s.swaps + 1 }
      else s
    .ok { s1 with matrix := elimStep n pivot s1.matrix }

/-- The pivot loop of `decompose` (lines 89-111) together with the
`catch` block (lines 113-116): a thrown error aborts the remaining
iterations, and the object keeps the state it had when the failing
iteration began (the throw in `index_best` precedes any mutation of that
iteration). -/
def decomposeLoop (tol : ℚ) (n : ℕ) : List ℕ → St → St × Option Err
  | [], s => (s, none)
  | p :: rest, s =>
    match pivotStep tol n p s with
    | .error e => (s, some e)
    | .ok s' => decomposeLoop tol n rest s'

/-- The state of an `LUMatrix` right after the `_order` initialisation
loop of `decompose` (lines 85-88): grid as populated, identity
permutation, zero swaps. -/
def initSt (m : Mat) : St :=
  { matrix := m, order := fun i => i, swaps := 0 }

/-- `LUMatrix::decompose` (lines 80-117): fix the effective tolerance
(line 84: a negative argument selects the default `1/1024`), initialise
the permutation to the identity, then run the pivot loop over
`pivot ∈ [0, n)`.  Returns the final state and the error the source would
have logged, if any. -/
def decompose (tolerance : ℚ) (n : ℕ) (m : Mat) : St × Option Err :=
  decomposeLoop (if tolerance < 0 then 1/1024 else tolerance) n
    (List.range n) (initSt m)

/-- Possible outcomes of a call to `LUMatrix::at` (lines 159-172).  The
source function is declared to return `double&` but contains no return
statement on any control path, so the only outcomes are: the bounds check
threw, the exception was caught and logged, and control fell off the end;
or the bounds check passed and control fell off the end directly.  The
`value` outcome a return statement would produce is never reached. -/
inductive AtOutcome
  | value (x : ℚ)
  | loggedOutOfBounds
  | fellOffEnd
deriving DecidableEq

/-- `LUMatrix::at` (lines 159-172) for an `LUMatrix` of dimension `dim`:
indices are C++ `int`s, the bounds check rejects `i < 1`, `j < 1`,
`i ≥ dim` and `j ≥ dim` (logging error 2, `indexOutOfBounds`); no control
path executes a return statement, and the matrix storage is never read or
written. -/
def atAccess (dim : ℕ) (i j : ℤ) : AtOutcome :=
  if i < 1 ∨ j < 1 ∨ i ≥ (dim : ℤ) ∨ j ≥ (dim : ℤ) then
    .loggedOutOfBounds
  else
    .fellOffEnd

/-- Scaling of one row by a constant (for the relative-pivoting
invariance property). -/
def scaleRow (m : Mat) (i : ℕ) (k : ℚ) : Mat :=
  fun a b => if a = i then k * m a b else m a b

/-- The identity matrix. -/
def idMat : Mat :=
  fun i j => if i = j then 1 else 0

/-- The scenario matrix `A = [[2,1,1],[4,3,3],[8,7,9]]` of the spec. -/
def matA : Mat :=
  fun i j => (([[2,1,1],[4,3,3],[8,7,9]] : List (List ℚ)).getD i []).getD j 0

/-- The matrix `[[0,0],[0,1]]`: its first row is all-zero and no row
exchange moves it away from pivot position 0. -/
def zrMat : Mat :=
  fun i j => (([[0,0],[0,1]] : List (List ℚ)).getD i []).getD j 0

/-- The all-zero matrix. -/
def zeroMat : Mat :=
  fun _ _ => 0

/-- The constant-one 1×1 test matrix for the scaling counterexample. -/
def oneMat : Mat :=
  fun _ _ => 1

/-- `_order` is a bijection of `[0, n)`: it maps `[0, n)` into itself,
injectively. -/
def OrderBij (n : ℕ) (f : ℕ → ℕ) : Prop :=
  (∀ i ∈ Finset.range n, f i ∈ Finset.range n) ∧
  ∀ i ∈ Finset.range n, ∀ j ∈ Finset.range n, f i = f j → i = j

instance (n : ℕ) (f : ℕ → ℕ) : Decidable (OrderBij n f) := by
  unfold OrderBij; infer_instance

instance {ε α : Type} [DecidableEq ε] [DecidableEq α] : DecidableEq (Except ε α) :=
  fun a b =>
    match a, b with
    | .ok x, .ok y => decidable_of_iff (x = y) (by simp)
    | .error x, .error y => decidable_of_iff (x = y) (by simp)
    | .ok _, .error _ => isFalse (by simp)
    | .error _, .ok _ => isFalse (by simp)

/-- Count, along a run of the pivot loop, of the iterations that perform
an actual row interchange (those where the selected row differs from the
pivot position; `++_swaps`, line 99). -/
def interchangeCount (tol : ℚ) (n : ℕ) : List ℕ → St → ℕ
  | [], _ => 0
  | p :: rest, s =>
    match pivotStep tol n p s with
    | .error _ => 0
    | .ok s' =>
      (match index_best s.matrix tol p n with
       | .ok r => if r ≠ p then 1 else 0
       | .error _ => 0) + interchangeCount tol n rest s'

/-! ### Basic facts about the `row_max` accumulation -/

theorem absMaxFold_cons (f : ℕ → ℚ) (j : ℕ) (l : List ℕ) (a : ℚ) :
    absMaxFold f (j :: l) a = absMaxFold f l (if |f j| > a then |f j| else a) :=
  rfl

theorem le_absMaxFold (f : ℕ → ℚ) (l : List ℕ) (a : ℚ) : a ≤ absMaxFold f l a := by
  induction l generalizing a with
  | nil => exact le_rfl
  | cons j l ih =>
    rw [absMaxFold_cons]
    refine le_trans ?_ (ih _)
    split
    · exact le_of_lt (by assumption)
    · exact le_rfl

theorem absMaxFold_le (f : ℕ → ℚ) (l : List ℕ) (a b : ℚ)
    (ha : a ≤ b) (hl : ∀ j ∈ l, |f j| ≤ b) : absMaxFold f l a ≤ b := by
  induction l generalizing a with
  | nil => exact ha
  | cons j l ih =>
    rw [absMaxFold_cons]
    refine ih _ ?_ fun i hi => hl i (List.mem_cons_of_mem _ hi)
    split
    · exact hl j (List.mem_cons_self _ _)
    · exact ha

theorem le_absMaxFold_of_mem (f : ℕ → ℚ) (l : List ℕ) (a : ℚ) (j : ℕ)
    (hj : j ∈ l) : |f j| ≤ absMaxFold f l a := by
  induction l generalizing a with
  | nil => cases hj
  | cons i l ih =>
    rw [absMaxFold_cons]
    rcases List.mem_cons.mp hj with h | h
    · subst h
      refine le_trans ?_ (le_absMaxFold _ _ _)
      split
      · exact le_rfl
      · exact le_of_not_lt (by assumption)
    · exact ih _ h

theorem rowMax_nonneg (m : Mat) (p n i : ℕ) : 0 ≤ rowMax m p n i :=
  le_trans (abs_nonneg _) (le_absMaxFold _ _ _)

theorem ratioOf_nonneg (m : Mat) (p n i : ℕ) : 0 ≤ ratioOf m p n i :=
  div_nonneg (abs_nonneg _) (rowMax_nonneg m p n i)

theorem ratioOf_def (m : Mat) (p n i : ℕ) :
    ratioOf m p n i = |m i p| / rowMax m p n i :=
  rfl

theorem abs_div_rowMax (m : Mat) (p n i : ℕ) :
    |m i p / rowMax m p n i| = ratioOf m p n i := by
  rw [ratioOf, abs_div, abs_of_nonneg (rowMax_nonneg m p n i)]

/-! ### Behaviour of the `index_best` row loop -/

theorem index_best_loop_err (m : Mat) (tol : ℚ) (p n : ℕ) :
    ∀ (l : List ℕ) (index : ℕ) (best : ℚ) (i : ℕ),
    i ∈ l → rowMax m p n i < tol →
    index_best_loop m tol p n l index best = .error .linearlyDependentRow := by
  intro l
  induction l with
  | nil => intro _ _ i h; cases h
  | cons a rest ih =>
    intro index best i hi hlt
    simp only [index_best_loop]
    by_cases ha : rowMax m p n a < tol
    · rw [if_pos ha]
    · rw [if_neg ha]
      have hir : i ∈ rest := by
        rcases List.mem_cons.mp hi with rfl | h
        · exact absurd hlt ha
        · exact h
      split
      · exact ih _ _ i hir hlt
      · exact ih _ _ i hir hlt

theorem index_best_loop_const (m : Mat) (tol : ℚ) (p n : ℕ) :
    ∀ (l : List ℕ) (index : ℕ) (best : ℚ),
    (∀ i ∈ l, ¬ rowMax m p n i < tol ∧ ¬ |m i p| / rowMax m p n i > best) →
    index_best_loop m tol p n l index best = .ok index := by
  intro l
  induction l with
  | nil => intro _ _ _; rfl
  | cons a rest ih =>
    intro index best h
    simp only [index_best_loop]
    rw [if_neg (h a (List.mem_cons_self _ _)).1,
      if_neg (h a (List.mem_cons_self _ _)).2]
    exact ih _ _ fun i hi => h i (List.mem_cons_of_mem _ hi)

theorem index_best_loop_ok_of_nonpos (m : Mat) (tol : ℚ) (p n : ℕ)
    (htol : tol ≤ 0) :
    ∀ (l : List ℕ) (index : ℕ) (best : ℚ),
    ∃ r, index_best_loop m tol p n l index best = .ok r := by
  intro l
  induction l with
  | nil => intro index _; exact ⟨index, rfl⟩
  | cons a rest ih =>
    intro index best
    simp only [index_best_loop]
    rw [if_neg (not_lt.mpr (le_trans htol (rowMax_nonneg m p n a)))]
    split
    · exact ih _ _
    · exact ih _ _

theorem index_best_loop_ok_mem (m : Mat) (tol : ℚ) (p n : ℕ) :
    ∀ (l : List ℕ) (index : ℕ) (best : ℚ) (r : ℕ),
    index_best_loop m tol p n l index best = .ok r → r = index ∨ r ∈ l := by
  intro l
  induction l with
  | nil =>
    intro index best r h
    exact Or.inl (Except.ok.inj h).symm
  | cons a rest ih =>
    intro index best r h
    simp only [index_best_loop] at h
    by_cases ha : rowMax m p n a < tol
    · rw [if_pos ha] at h; cases h
    · rw [if_neg ha] at h
      split at h
      · rcases ih _ _ _ h with rfl | hm
        · exact Or.inr (List.mem_cons_self _ _)
        · exact Or.inr (List.mem_cons_of_mem _ hm)
      · rcases ih _ _ _ h with rfl | hm
        · exact Or.inl rfl
        · exact Or.inr (List.mem_cons_of_mem _ hm)

/-- Any row index that `index_best` returns lies in `[p, n)` (or is the
defaulted `p` itself when the scan range is empty). -/
theorem index_best_ok_bounds (m : Mat) (tol : ℚ) (p n r : ℕ)
    (h : index_best m tol p n = .ok r) : p ≤ r ∧ (p < n → r < n) := by
  rcases index_best_loop_ok_mem m tol p n _ _ _ _ h with rfl | hm
  · exact ⟨le_rfl, fun h => h⟩
  · rcases List.mem_range'_1.mp hm with ⟨h1, h2⟩
    refine ⟨h1, fun hpn => ?_⟩
    omega

/-- Full characterisation of the row loop of `index_best` over the rows
`[q, n)`, assuming every scanned row passes the tolerance check: the loop
returns a winner, and the winner either is the incoming `index` (when no
scanned ratio strictly exceeds the incoming `best`) or is the earliest
scanned row attaining the strictly largest ratio. -/
theorem index_best_loop_spec (m : Mat) (tol : ℚ) (p n : ℕ) :
    ∀ (k q index : ℕ) (best : ℚ), q + k = n → 0 ≤ best →
    (∀ i, q ≤ i → i < n → ¬ rowMax m p n i < tol) →
    ∃ r, index_best_loop m tol p n (List.range' q k) index best = .ok r ∧
      ((r = index ∧ ∀ i, q ≤ i → i < n → ratioOf m p n i ≤ best) ∨
       (q ≤ r ∧ r < n ∧ best < ratioOf m p n r ∧
        (∀ i, q ≤ i → i < n → ratioOf m p n i ≤ ratioOf m p n r) ∧
        (∀ i, q ≤ i → i < r → ratioOf m p n i < ratioOf m p n r))) := by
  intro k
  induction k with
  | zero =>
    intro q index best hq _ _
    exact ⟨index, rfl, Or.inl ⟨rfl, fun i hqi hin => absurd hin (by omega)⟩⟩
  | succ k ih =>
    intro q index best hq hb hchk
    have hqn : q < n := by omega
    rw [List.range'_succ]
    simp only [index_best_loop]
    rw [if_neg (hchk q le_rfl hqn), ← ratioOf_def]
    by_cases hg : best < ratioOf m p n q
    · rw [if_pos hg, abs_div_rowMax]
      obtain ⟨r, hr, hcase⟩ := ih (q + 1) q (ratioOf m p n q) (by omega)
        (ratioOf_nonneg m p n q) fun i hqi hin => hchk i (by omega) hin
      refine ⟨r, hr, Or.inr ?_⟩
      rcases hcase with ⟨rfl, hle⟩ | ⟨hqr, hrn, hbr, hmax, hstr⟩
      · refine ⟨le_rfl, hqn, hg, ?_, ?_⟩
        · intro i hqi hin
          rcases eq_or_lt_of_le hqi with rfl | hqi'
          · exact le_rfl
          · exact hle i hqi' hin
        · intro i hqi hir
          exact absurd hir (by omega)
      · refine ⟨by omega, hrn, lt_trans hg hbr, ?_, ?_⟩
        · intro i hqi hin
          rcases eq_or_lt_of_le hqi with rfl | hqi'
          · exact le_of_lt hbr
          · exact hmax i (by omega) hin
        · intro i hqi hir
          rcases eq_or_lt_of_le hqi with rfl | hqi'
          · exact hbr
          · exact hstr i (by omega) hir
    · rw [if_neg hg]
      obtain ⟨r, hr, hcase⟩ := ih (q + 1) index best (by omega) hb
        fun i hqi hin => hchk i (by omega) hin
      refine ⟨r, hr, ?_⟩
      rcases hcase with ⟨rfl, hle⟩ | ⟨hqr, hrn, hbr, hmax, hstr⟩
      · refine Or.inl ⟨rfl, ?_⟩
        intro i hqi hin
        rcases eq_or_lt_of_le hqi with rfl | hqi'
        · exact le_of_not_lt hg
        · exact hle i hqi' hin
      · refine Or.inr ⟨by omega, hrn, hbr, ?_, ?_⟩
        · intro i hqi hin
          rcases eq_or_lt_of_le hqi with rfl | hqi'
          · exact le_of_lt (lt_of_le_of_lt (le_of_not_lt hg) hbr)
          · exact hmax i (by omega) hin
        · intro i hqi hir
          rcases eq_or_lt_of_le hqi with rfl | hqi'
          · exact lt_of_le_of_lt (le_of_not_lt hg) hbr
          · exact hstr i (by omega) hir

/-! ### Claim theorems -/

/-- C1: whenever every scanned row passes the tolerance check, pivot
selection at pivot index `p` scans rows `i ∈ [p, n)`, each row's `row_max`
bounds `|matrix[i][j]|` over the scanned columns `j ∈ [p, n)`, and the
returned row has the strictly largest ratio `|matrix[i][p]| / row_max`:
every scanned ratio is at most the winner's, every row strictly before the
winner has a strictly smaller ratio (ties keep the earliest row), and the
result defaults to `p` when no row strictly improves on ratio `0`. -/
theorem c1_relative_pivot_selection (m : Mat) (tol : ℚ) (p n : ℕ)
    (hchk : ∀ i ∈ Finset.Ico p n, ¬ rowMax m p n i < tol) :
    ∃ r, index_best m tol p n = .ok r ∧ p ≤ r ∧ (p < n → r < n) ∧
      (∀ i ∈ Finset.Ico p n, ∀ j ∈ Finset.Ico p n, |m i j| ≤ rowMax m p n i) ∧
      (∀ i ∈ Finset.Ico p n, ratioOf m p n i ≤ ratioOf m p n r) ∧
      (∀ i ∈ Finset.Ico p n, i < r → ratioOf m p n i < ratioOf m p n r) ∧
      ((∀ i ∈ Finset.Ico p n, ratioOf m p n i ≤ 0) → r = p) := by
  have hbound : ∀ i ∈ Finset.Ico p n, ∀ j ∈ Finset.Ico p n,
      |m i j| ≤ rowMax m p n i := by
    intro i _ j hj
    rcases Finset.mem_Ico.mp hj with ⟨h1, h2⟩
    exact le_absMaxFold_of_mem _ _ _ j (List.mem_range'_1.mpr ⟨h1, by omega⟩)
  rcases le_or_lt n p with hnp | hpn
  · refine ⟨p, ?_, le_rfl, fun h => absurd h (by omega), hbound,
      fun i hi => absurd (Finset.mem_Ico.mp hi) (by omega),
      fun i hi => absurd (Finset.mem_Ico.mp hi) (by omega),
      fun _ => rfl⟩
    rw [index_best, Nat.sub_eq_zero_of_le hnp]
    rfl
  · obtain ⟨r, hr, hcase⟩ := index_best_loop_spec m tol p n (n - p) p p 0
      (by omega) le_rfl
      fun i h1 h2 => hchk i (Finset.mem_Ico.mpr ⟨h1, h2⟩)
    have hr' : index_best m tol p n = Except.ok r := hr
    rcases hcase with ⟨hrp, hle⟩ | ⟨hpr, hrn, hbr, hmax, hstr⟩
    · refine ⟨r, hr', le_of_eq hrp.symm, fun h => by omega, hbound, ?_, ?_,
        fun _ => hrp⟩
      · intro i hi
        rcases Finset.mem_Ico.mp hi with ⟨h1, h2⟩
        exact le_trans (hle i h1 h2) (ratioOf_nonneg m p n r)
      · intro i hi hir
        rcases Finset.mem_Ico.mp hi with ⟨h1, _⟩
        exact absurd hir (by omega)
    · refine ⟨r, hr', hpr, fun _ => hrn, hbound, ?_, ?_, ?_⟩
      · intro i hi
        rcases Finset.mem_Ico.mp hi with ⟨h1, h2⟩
        exact hmax i h1 h2
      · intro i hi hir
        exact hstr i (Finset.mem_Ico.mp hi).1 hir
      · intro hall
        exact absurd hbr
          (not_lt.mpr (hall r (Finset.mem_Ico.mpr ⟨hpr, hrn⟩)))

/-- C1 witness: at the scenario matrix with the default tolerance, the
winning row returned for pivot 0 dominates the ratios of rows 1 and 2. -/
theorem c1_witness :
    ratioOf matA 0 3 1 ≤ ratioOf matA 0 3 0 ∧
    ratioOf matA 0 3 2 ≤ ratioOf matA 0 3 0 := by
  obtain ⟨r, hr, _, _, _, hmax, _, _⟩ :=
    c1_relative_pivot_selection matA (1/1024) 0 3 (by decide)
  have hval : index_best matA (1/1024) 0 3 = Except.ok 0 := by decide
  have hr0 : r = 0 := Except.ok.inj (hr.symm.trans hval)
  subst hr0
  exact ⟨hmax 1 (by decide), hmax 2 (by decide)⟩

/-- C2 counterexample: at the scenario matrix `A = [[2,1,1],[4,3,3],[8,7,9]]`
the first pivot step does not select row 2 (the relative ratios are
`1, 1, 8/9`, so row 0 wins), and the completed decomposition reports
`SwapCount = 0`, not `≥ 1`; shown both at the default tolerance `1/1024`
and at the `1e-6` tolerance `main` passes. -/
theorem c2_counterexample :
    ¬ (index_best matA (1/1024) 0 3 = Except.ok 2 ∧
       1 ≤ (decompose (1/1024) 3 matA).1.swaps) ∧
    ¬ (index_best matA (1/1000000) 0 3 = Except.ok 2 ∧
       1 ≤ (decompose (1/1000000) 3 matA).1.swaps) := by
  decide

/-- C2 amended: for n=3, `A = [[2,1,1],[4,3,3],[8,7,9]]`, the first pivot
step selects row index 0 as the best relative pivot (the relative ratios
of rows 0, 1, 2 are `1`, `1`, `8/9`, and ties keep the earliest row), and
the completed decomposition succeeds with `SwapCount = 0`. -/
theorem c2_amended_scenario :
    index_best matA (1/1024) 0 3 = Except.ok 0 ∧
    (decompose (1/1024) 3 matA).1.swaps = 0 ∧
    (decompose (1/1024) 3 matA).2 = none ∧
    ratioOf matA 0 3 0 = 1 ∧ ratioOf matA 0 3 1 = 1 ∧
    ratioOf matA 0 3 2 = 8/9 := by
  decide

/-- C6: on a 3×3 matrix the element accessor, called at `(1, 1)` — inside
the claimed valid range `1 ≤ i, j ≤ n-1` — produces no value: the source
contains no return statement, so control falls off the end instead of
yielding the element slot.  The out-of-bounds path (for example `(0, 1)`)
does log `IndexOutOfBounds` without touching storage. -/
theorem c6_at_in_bounds_no_value :
    atAccess 3 1 1 = AtOutcome.fellOffEnd ∧
    atAccess 3 0 1 = AtOutcome.loggedOutOfBounds ∧
    ∀ x, atAccess 3 1 1 ≠ AtOutcome.value x := by
  refine ⟨by decide, by decide, fun x h => ?_⟩
  rw [show atAccess 3 1 1 = AtOutcome.fellOffEnd by decide] at h
  exact AtOutcome.noConfusion h

/-- C7: the effective tolerance used by `decompose` for the singularity
check is the default `1/1024` when the supplied tolerance is negative, and
the supplied value itself otherwise (including zero). -/
theorem c7_effective_tolerance (t : ℚ) (n : ℕ) (m : Mat) :
    (t < 0 → decompose t n m =
      decomposeLoop (1/1024) n (List.range n) (initSt m)) ∧
    (0 ≤ t → decompose t n m =
      decomposeLoop t n (List.range n) (initSt m)) := by
  constructor
  · intro ht; rw [decompose, if_pos ht]
  · intro ht; rw [decompose, if_neg (not_lt.mpr ht)]

/-- C7 witness: tolerance `-1` is replaced by the default `1/1024`, and
tolerance `0` is kept as is. -/
theorem c7_witness :
    decompose (-1) 1 idMat =
      decomposeLoop (1/1024) 1 (List.range 1) (initSt idMat) ∧
    decompose 0 1 idMat =
      decomposeLoop 0 1 (List.range 1) (initSt idMat) :=
  ⟨(c7_effective_tolerance (-1) 1 idMat).1 (by norm_num),
   (c7_effective_tolerance 0 1 idMat).2 le_rfl⟩

/-- C9: the element accessor contains no return statement on any control
path: for every dimension and every index pair — in bounds or not — it
never produces a value. -/
theorem c9_at_never_produces_value (dim : ℕ) (i j : ℤ) (x : ℚ) :
    atAccess dim i j ≠ AtOutcome.value x := by
  unfold atAccess
  split
  · exact fun h => AtOutcome.noConfusion h
  · exact fun h => AtOutcome.noConfusion h

/-- A scanned row whose `row_max` is below the tolerance at the moment
the pivot scan reaches it makes that pivot iteration throw
`linearlyDependentRow`, which aborts the remaining pivot loop and leaves
the state exactly as it was when the failing iteration began. -/
theorem decomposeLoop_dependent_row (t : ℚ) (n p : ℕ) (rest : List ℕ)
    (s : St) (i : ℕ) (h1 : p ≤ i) (h2 : i < n)
    (h3 : rowMax s.matrix p n i < t) :
    decomposeLoop t n (p :: rest) s = (s, some Err.linearlyDependentRow) := by
  have hib : index_best s.matrix t p n = .error .linearlyDependentRow := by
    rw [index_best]
    exact index_best_loop_err s.matrix t p n _ _ _ i
      (List.mem_range'_1.mpr ⟨h1, by omega⟩) h3
  have hps : pivotStep t n p s = .error .linearlyDependentRow := by
    simp only [pivotStep, hib]
  simp only [decomposeLoop, hps]

/-- C4: a row whose remaining-columns maximum magnitude is below the
tolerance at the moment the pivot scan reaches it makes the decomposition
fail with `linearlyDependentRow`, aborting the remaining pivot loop so
that only the pivots before the failing one are finalised — the returned
state is exactly the one the failing iteration started from.  In
particular, for any matrix with an all-zero row `i < n` and any positive
tolerance, the failure is raised by the very first pivot scan and the
returned state is the initial one: matrix untouched, identity
permutation, zero swaps.  (In this exact-arithmetic model no NaN/Inf
value exists at all; in the source, the throw likewise precedes every
division involving the failing row.) -/
theorem c4_dependent_row_aborts (n : ℕ) :
    (∀ (t : ℚ) (p : ℕ) (rest : List ℕ) (s : St) (i : ℕ),
      p ≤ i → i < n → rowMax s.matrix p n i < t →
      decomposeLoop t n (p :: rest) s = (s, some Err.linearlyDependentRow)) ∧
    (∀ (m : Mat) (t : ℚ) (i : ℕ), i < n → 0 < t →
      (∀ j ∈ Finset.range n, m i j = 0) →
      decompose t n m = (initSt m, some Err.linearlyDependentRow)) := by
  refine ⟨fun t p rest s i h1 h2 h3 =>
    decomposeLoop_dependent_row t n p rest s i h1 h2 h3, ?_⟩
  intro m t i hi ht hz
  have h0n : 0 < n := by omega
  have hrm : rowMax m 0 n i = 0 := by
    refine le_antisymm ?_ (rowMax_nonneg m 0 n i)
    rw [rowMax]
    refine absMaxFold_le _ _ _ _ ?_ ?_
    · rw [hz 0 (Finset.mem_range.mpr h0n), abs_zero]
    · intro j hj
      rcases List.mem_range'_1.mp hj with ⟨-, h2⟩
      rw [hz j (Finset.mem_range.mpr (by omega)), abs_zero]
  obtain ⟨k, rfl⟩ : ∃ k, n = k + 1 := ⟨n - 1, by omega⟩
  rw [decompose, if_neg (not_lt.mpr (le_of_lt ht)), List.range_eq_range',
    List.range'_succ]
  refine decomposeLoop_dependent_row t (k + 1) 0 _ (initSt m) i
    (Nat.zero_le i) hi ?_
  rw [show (initSt m).matrix = m from rfl, hrm]
  exact ht

/-- With a non-positive tolerance the tolerance check of `index_best`
can never fire, since every `row_max` is an absolute value and hence
non-negative while the comparison is strict. -/
theorem decomposeLoop_none_of_nonpos (tol : ℚ) (htol : tol ≤ 0) (n : ℕ) :
    ∀ (l : List ℕ) (s : St), (decomposeLoop tol n l s).2 = none := by
  intro l
  induction l with
  | nil => intro _; rfl
  | cons p rest ih =>
    intro s
    obtain ⟨r, hr⟩ := index_best_loop_ok_of_nonpos s.matrix tol p n htol
      (List.range' p (n - p)) p 0
    have hr' : index_best s.matrix tol p n = .ok r := hr
    simp only [decomposeLoop, pivotStep, hr']
    exact ih _

/-- C10: when the supplied tolerance is exactly `0` (kept, not replaced by
the default), the `linearlyDependentRow` branch is unreachable — every
scanned `row_max` is `≥ 0` and the check is the strict `row_max < 0` — so
`decompose` never reports an error, for any matrix.  In particular
`[[0,0],[0,1]]`, whose first row is all-zero, is not rejected: pivot
step 0 keeps row 0, whose pivot entry is `0`, as the pivot row while
row 1 lies below it, so the elimination multiplier stored at `(1,0)` is
computed by dividing by that zero pivot. -/
theorem c10_zero_tolerance_no_error :
    (∀ (n : ℕ) (m : Mat), (decompose 0 n m).2 = none) ∧
    (decompose 0 2 zrMat).2 = none ∧
    zrMat 0 0 = 0 ∧ zrMat 0 1 = 0 ∧
    index_best zrMat 0 0 2 = Except.ok 0 ∧
    (decompose 0 2 zrMat).1.matrix 1 0 = zrMat 1 0 / zrMat 0 0 := by
  have hmain : ∀ (n : ℕ) (m : Mat), (decompose 0 n m).2 = none := by
    intro n m
    rw [decompose, if_neg (lt_irrefl 0)]
    exact decomposeLoop_none_of_nonpos 0 le_rfl n _ _
  exact ⟨hmain, hmain 2 zrMat, by decide, by decide, by decide, by decide⟩

/-- Scaling all values of the fold by a positive constant scales the
accumulated maximum by the same constant. -/
theorem absMaxFold_mul (f : ℕ → ℚ) (k : ℚ) (hk : 0 < k) :
    ∀ (l : List ℕ) (a : ℚ),
    absMaxFold (fun j => k * f j) l (k * a) = k * absMaxFold f l a := by
  intro l
  induction l with
  | nil => intro _; rfl
  | cons j rest ih =>
    intro a
    rw [absMaxFold_cons, absMaxFold_cons]
    have habs : |k * f j| = k * |f j| := by rw [abs_mul, abs_of_pos hk]
    by_cases h : |f j| > a
    · rw [if_pos h,
        if_pos (show |k * f j| > k * a by
          rw [habs]; exact (mul_lt_mul_left hk).mpr h),
        show |k * f j| = k * |f j| from habs, ih]
    · rw [if_neg h,
        if_neg (show ¬ |k * f j| > k * a by
          rw [habs]; exact fun hc => h ((mul_lt_mul_left hk).mp hc)),
        ih]

/-- Scaling row `i` by a positive `k` scales that row's `row_max` by
`k`. -/
theorem rowMax_scaleRow_self (m : Mat) (p n i : ℕ) (k : ℚ) (hk : 0 < k) :
    rowMax (scaleRow m i k) p n i = k * rowMax m p n i := by
  rw [rowMax, rowMax]
  have h1 : absMaxFold (scaleRow m i k i) (List.range' p (n - p))
      |scaleRow m i k i p| =
      absMaxFold (fun b => k * m i b) (List.range' p (n - p)) (k * |m i p|) := by
    congr 1
    · funext b; simp [scaleRow]
    · simp [scaleRow, abs_mul, abs_of_pos hk]
  rw [h1, absMaxFold_mul _ _ hk]

/-- Scaling row `i` leaves every other row's `row_max` unchanged. -/
theorem rowMax_scaleRow_other (m : Mat) (p n i a : ℕ) (k : ℚ) (ha : a ≠ i) :
    rowMax (scaleRow m i k) p n a = rowMax m p n a := by
  rw [rowMax, rowMax]
  congr 1
  · funext b; simp [scaleRow, ha]
  · simp [scaleRow, ha]

/-- The row loop of `index_best` is unchanged by scaling row `i` by a
positive constant, provided row `i` passes the tolerance check in both
the original and the scaled matrix. -/
theorem index_best_loop_scaleRow (m : Mat) (tol : ℚ) (p n i : ℕ) (k : ℚ)
    (hk : 0 < k)
    (h1 : ¬ rowMax m p n i < tol)
    (h2 : ¬ rowMax (scaleRow m i k) p n i < tol) :
    ∀ (l : List ℕ) (index : ℕ) (best : ℚ),
    index_best_loop (scaleRow m i k) tol p n l index best =
      index_best_loop m tol p n l index best := by
  intro l
  induction l with
  | nil => intro _ _; rfl
  | cons a rest ih =>
    intro index best
    simp only [index_best_loop]
    by_cases hai : a = i
    · subst hai
      rw [if_neg h2, if_neg h1]
      have hre : |scaleRow m a k a p| / rowMax (scaleRow m a k) p n a =
          |m a p| / rowMax m p n a := by
        rw [rowMax_scaleRow_self m p n a k hk,
          show scaleRow m a k a p = k * m a p from if_pos rfl,
          abs_mul, abs_of_pos hk, mul_div_mul_left _ _ (ne_of_gt hk)]
      have hre2 : |scaleRow m a k a p / rowMax (scaleRow m a k) p n a| =
          |m a p / rowMax m p n a| := by
        rw [abs_div_rowMax, abs_div_rowMax, ratioOf_def, ratioOf_def, hre]
      rw [hre, hre2]
      split
      · exact ih _ _
      · exact ih _ _
    · have hrm : rowMax (scaleRow m i k) p n a = rowMax m p n a :=
        rowMax_scaleRow_other m p n i a k hai
      have hmp : scaleRow m i k a p = m a p := if_neg hai
      rw [hrm, hmp]
      split
      · rfl
      · split
        · exact ih _ _
        · exact ih _ _

/-- C8 counterexample: for the 1×1 matrix `[[1]]` with tolerance `1/2`,
scaling row 0 by the positive constant `1/4` pushes the row's maximum
below the tolerance: the original selection returns row 0 but the scaled
one throws `linearlyDependentRow`, so the selected row is not
invariant. -/
theorem c8_counterexample :
    (0:ℚ) < 1/4 ∧
    index_best oneMat (1/2) 0 1 = Except.ok 0 ∧
    index_best (scaleRow oneMat 0 (1/4)) (1/2) 0 1 =
      Except.error Err.linearlyDependentRow ∧
    index_best (scaleRow oneMat 0 (1/4)) (1/2) 0 1 ≠
      index_best oneMat (1/2) 0 1 := by
  refine ⟨by norm_num, by decide, by decide, by decide⟩

/-- C8 amended: in exact arithmetic, multiplying every entry of row `i`
by a positive constant `k` does not change which row index
`index_best` returns, provided row `i` still passes the tolerance check
in both the original and the scaled matrix (automatic whenever the
tolerance is non-positive); otherwise the scaling can only turn the scan
into a `linearlyDependentRow` failure or back, never select a different
row. -/
theorem c8_row_scaling_invariance (m : Mat) (tol : ℚ) (p n i : ℕ) (k : ℚ)
    (hk : 0 < k)
    (h1 : ¬ rowMax m p n i < tol)
    (h2 : ¬ rowMax (scaleRow m i k) p n i < tol) :
    index_best (scaleRow m i k) tol p n = index_best m tol p n := by
  rw [index_best, index_best]
  exact index_best_loop_scaleRow m tol p n i k hk h1 h2 _ _ _

/-- C8 witness: doubling row 1 of the scenario matrix leaves the selected
pivot row unchanged. -/
theorem c8_witness :
    index_best (scaleRow matA 1 2) (1/1024) 0 3 =
      index_best matA (1/1024) 0 3 :=
  c8_row_scaling_invariance matA (1/1024) 0 3 1 2 (by norm_num)
    (by decide) (by decide)

/-- C4 witness: the all-zero 2×2 matrix with tolerance 1 fails
immediately, returning the untouched initial state. -/
theorem c4_witness :
    decompose 1 2 zeroMat = (initSt zeroMat, some Err.linearlyDependentRow) :=
  (c4_dependent_row_aborts 2).2 zeroMat 1 0 (by norm_num) (by norm_num)
    (by decide)

/-- Writing back the value an entry already holds changes nothing. -/
theorem updMat_self (m : Mat) (i j : ℕ) : updMat m i j (m i j) = m := by
  funext a b
  rw [updMat]
  split
  next h => rw [h.1, h.2]
  next => rfl

/-- Writing back a value equal to the one the entry already holds changes
nothing. -/
theorem updMat_eq (m : Mat) (i j : ℕ) (v : ℚ) (hv : v = m i j) :
    updMat m i j v = m := by
  rw [hv]
  exact updMat_self m i j

theorem abs_idMat_le_one (a b : ℕ) : |idMat a b| ≤ 1 := by
  rw [idMat]
  split <;> norm_num

/-- Every scanned row of the identity matrix has `row_max = 1`. -/
theorem rowMax_idMat (p n i : ℕ) (hpi : p ≤ i) (hin : i < n) :
    rowMax idMat p n i = 1 := by
  refine le_antisymm ?_ ?_
  · rw [rowMax]
    exact absMaxFold_le _ _ _ _ (abs_idMat_le_one i p)
      fun j _ => abs_idMat_le_one i j
  · have h1 : |idMat i i| ≤ rowMax idMat p n i :=
      le_absMaxFold_of_mem _ _ _ i (List.mem_range'_1.mpr ⟨hpi, by omega⟩)
    calc (1:ℚ) = |idMat i i| := by rw [idMat]; norm_num
    _ ≤ _ := h1

/-- On the identity matrix, pivot selection always keeps the pivot
position itself (any tolerance `≤ 1`). -/
theorem index_best_idMat (tol : ℚ) (htol : tol ≤ 1) (p n : ℕ) :
    index_best idMat tol p n = .ok p := by
  rcases le_or_lt n p with hnp | hpn
  · rw [index_best, Nat.sub_eq_zero_of_le hnp]
    rfl
  · rw [index_best]
    have hrm : rowMax idMat p n p = 1 := rowMax_idMat p n p le_rfl hpn
    rw [show n - p = (n - p - 1) + 1 by omega, List.range'_succ]
    simp only [index_best_loop]
    rw [if_neg (by rw [hrm]; exact not_lt.mpr htol),
      if_pos (show |idMat p p| / rowMax idMat p n p > 0 by
        rw [hrm, idMat]; norm_num),
      show |idMat p p / rowMax idMat p n p| = 1 by rw [hrm, idMat]; norm_num]
    refine index_best_loop_const idMat tol p n _ _ _ ?_
    intro i hi
    rcases List.mem_range'_1.mp hi with ⟨h1, h2⟩
    have hin : i < n := by omega
    have hrmi : rowMax idMat p n i = 1 := rowMax_idMat p n i (by omega) hin
    constructor
    · rw [hrmi]
      exact not_lt.mpr htol
    · rw [hrmi, idMat]
      have : ¬ i = p := by omega
      rw [if_neg this]
      norm_num

/-- Eliminating any row of the identity matrix changes nothing: the
multiplier is `0 / 1 = 0`. -/
theorem elimRow_idMat (n p r : ℕ) (hr : r ≠ p) : elimRow n p r idMat = idMat := by
  have hc : idMat r p / idMat p p = 0 := by
    rw [show idMat r p = 0 by simp [idMat, hr], zero_div]
  rw [elimRow, hc]
  have hfold : ∀ l : List ℕ,
      l.foldl (fun acc col => updMat acc r col (acc r col - 0 * acc p col))
        idMat = idMat := by
    intro l
    induction l with
    | nil => rfl
    | cons c cs ih =>
      rw [List.foldl_cons,
        updMat_eq idMat r c _ (by rw [zero_mul, sub_zero])]
      exact ih
  rw [hfold]
  exact updMat_eq idMat r p 0 (by simp [idMat, hr])

theorem elimStep_idMat (n p : ℕ) : elimStep n p idMat = idMat := by
  rw [elimStep]
  have hfold : ∀ l : List ℕ, (∀ r ∈ l, r ≠ p) →
      l.foldl (fun acc r => elimRow n p r acc) idMat = idMat := by
    intro l
    induction l with
    | nil => intro _; rfl
    | cons r rest ih =>
      intro h
      rw [List.foldl_cons, elimRow_idMat n p r (h r (List.mem_cons_self _ _))]
      exact ih fun x hx => h x (List.mem_cons_of_mem _ hx)
  refine hfold _ ?_
  intro r hr
  rcases List.mem_range'_1.mp hr with ⟨h1, -⟩
  omega

theorem pivotStep_idMat (tol : ℚ) (htol : tol ≤ 1) (n p : ℕ) (f : ℕ → ℕ)
    (c : ℕ) : pivotStep tol n p ⟨idMat, f, c⟩ = .ok ⟨idMat, f, c⟩ := by
  have hib : index_best (St.mk idMat f c).matrix tol p n = .ok p :=
    index_best_idMat tol htol p n
  simp only [pivotStep, hib, ne_eq, not_true_eq_false, if_false,
    elimStep_idMat]

theorem decomposeLoop_idMat (tol : ℚ) (htol : tol ≤ 1) (n : ℕ) :
    ∀ l : List ℕ, decomposeLoop tol n l ⟨idMat, fun x => x, 0⟩ =
      (⟨idMat, fun x => x, 0⟩, none) := by
  intro l
  induction l with
  | nil => rfl
  | cons p rest ih =>
    simp only [decomposeLoop, pivotStep_idMat tol htol n p]
    exact ih

/-- C3: for every dimension `n ≥ 1` and tolerance argument `t < 1`
(so the effective tolerance, default included, never exceeds 1 and the
singularity check cannot fire), decomposing the identity matrix succeeds
and leaves everything in place: the stored grid is still the identity —
strictly-lower (L) entries `0`, on/above-diagonal (U) entries those of the
identity — `SwapCount = 0` and the permutation is `[0, …, n-1]`. -/
theorem c3_identity_decomposition (n : ℕ) (t : ℚ) (hn : 1 ≤ n) (ht : t < 1) :
    (decompose t n idMat).2 = none ∧
    (∀ i j, i < n → j < n →
      (decompose t n idMat).1.matrix i j = if i = j then (1:ℚ) else 0) ∧
    (decompose t n idMat).1.swaps = 0 ∧
    (∀ i, i < n → (decompose t n idMat).1.order i = i) := by
  have ht' : (if t < 0 then 1/1024 else t : ℚ) ≤ 1 := by
    split
    · norm_num
    · exact le_of_lt ht
  have hd : decompose t n idMat = (⟨idMat, fun x => x, 0⟩, none) := by
    rw [decompose]
    exact decomposeLoop_idMat _ ht' n _
  rw [hd]
  exact ⟨rfl, fun i j _ _ => rfl, rfl, fun i _ => rfl⟩

/-- C3 witness: the 2×2 identity decomposes with no error, no swaps,
identity factors and identity permutation. -/
theorem c3_witness :
    (decompose (1/2) 2 idMat).2 = none ∧
    (decompose (1/2) 2 idMat).1.matrix 0 0 = 1 ∧
    (decompose (1/2) 2 idMat).1.matrix 1 0 = 0 ∧
    (decompose (1/2) 2 idMat).1.swaps = 0 ∧
    (decompose (1/2) 2 idMat).1.order 1 = 1 := by
  have h := c3_identity_decomposition 2 (1/2) (by norm_num) (by norm_num)
  refine ⟨h.1, ?_, ?_, h.2.2.1, h.2.2.2 1 (by norm_num)⟩
  · have h2 := h.2.1 0 0 (by norm_num) (by norm_num)
    simpa using h2
  · have h2 := h.2.1 1 0 (by norm_num) (by norm_num)
    simpa using h2

/-- Exchanging two in-range entries of a bijection of `[0, n)` yields a
bijection of `[0, n)` again. -/
theorem OrderBij_oswap (n : ℕ) (f : ℕ → ℕ) (hf : OrderBij n f) (i j : ℕ)
    (hi : i < n) (hj : j < n) : OrderBij n (oswap f i j) := by
  obtain ⟨hmap, hinj⟩ := hf
  simp only [Finset.mem_range] at hmap hinj
  have hcomp : ∀ a, oswap f i j a =
      f (if a = i then j else if a = j then i else a) := by
    intro a
    simp only [oswap]
    split_ifs <;> rfl
  have hswap_lt : ∀ a, a < n →
      (if a = i then j else if a = j then i else a) < n := by
    intro a ha
    split_ifs <;> assumption
  constructor
  · intro a ha
    rw [Finset.mem_range] at ha ⊢
    rw [hcomp]
    exact hmap _ (hswap_lt a ha)
  · intro a ha b hb hab
    rw [Finset.mem_range] at ha hb
    rw [hcomp, hcomp] at hab
    have h2 := hinj _ (hswap_lt a ha) _ (hswap_lt b hb) hab
    split_ifs at h2 <;> omega

/-- C5: the swap counter counts exactly the actual row interchanges, and
the permutation stays a bijection.  Per pivot step: when the selected row
equals the pivot position, `_swaps` and `_order` are untouched; when it
differs, `_swaps` grows by exactly one and `_order` gets the two entries
exchanged.  Along any run of the pivot loop the final counter is the
starting counter plus the number of steps that performed an actual
interchange, and `_order` — initialised by `decompose` to the identity —
remains a bijection of `[0, n)` after every pivot step. -/
theorem c5_swap_count_and_permutation (tol : ℚ) (n : ℕ) :
    (∀ (p : ℕ) (s s' : St), pivotStep tol n p s = .ok s' →
      (index_best s.matrix tol p n = .ok p →
        s'.swaps = s.swaps ∧ s'.order = s.order) ∧
      (∀ r, index_best s.matrix tol p n = .ok r → r ≠ p →
        s'.swaps = s.swaps + 1 ∧ s'.order = oswap s.order p r)) ∧
    (∀ (l : List ℕ) (s : St),
      (decomposeLoop tol n l s).1.swaps =
        s.swaps + interchangeCount tol n l s) ∧
    (∀ (l : List ℕ) (s : St), (∀ p ∈ l, p < n) → OrderBij n s.order →
      OrderBij n (decomposeLoop tol n l s).1.order) ∧
    (∀ m : Mat, OrderBij n (decompose tol n m).1.order ∧
      (decompose tol n m).1.swaps =
        interchangeCount (if tol < 0 then 1/1024 else tol) n
          (List.range n) (initSt m)) := by
  have hstep : ∀ (t' : ℚ) (p : ℕ) (s s' : St), pivotStep t' n p s = .ok s' →
      (index_best s.matrix t' p n = .ok p →
        s'.swaps = s.swaps ∧ s'.order = s.order) ∧
      (∀ r, index_best s.matrix t' p n = .ok r → r ≠ p →
        s'.swaps = s.swaps + 1 ∧ s'.order = oswap s.order p r) := by
    intro t' p s s' h
    constructor
    · intro hib
      simp only [pivotStep, hib, ne_eq, not_true_eq_false, if_false] at h
      rw [← Except.ok.inj h]
      exact ⟨rfl, rfl⟩
    · intro r hib hrp
      simp only [pivotStep, hib, ne_eq, hrp, not_false_eq_true, if_true] at h
      rw [← Except.ok.inj h]
      exact ⟨rfl, rfl⟩
  have hcount : ∀ (t' : ℚ) (l : List ℕ) (s : St),
      (decomposeLoop t' n l s).1.swaps =
        s.swaps + interchangeCount t' n l s := by
    intro t' l
    induction l with
    | nil => intro s; rfl
    | cons p rest ih =>
      intro s
      cases hps : pivotStep t' n p s with
      | error e =>
        simp only [decomposeLoop, interchangeCount, hps]
        omega
      | ok s' =>
        simp only [decomposeLoop, interchangeCount, hps]
        rw [ih s']
        cases hib : index_best s.matrix t' p n with
        | error e =>
          simp only [pivotStep, hib] at hps
          exact Except.noConfusion hps
        | ok r =>
          by_cases hrp : r = p
          · rw [((hstep t' p s s' hps).1 (hrp ▸ hib)).1]
            simp only [hib, ne_eq, hrp, not_true_eq_false, if_false]
            omega
          · rw [((hstep t' p s s' hps).2 r hib hrp).1]
            simp only [hib, ne_eq, hrp, not_false_eq_true, if_true]
            omega
  have hbij : ∀ (t' : ℚ) (l : List ℕ) (s : St), (∀ p ∈ l, p < n) →
      OrderBij n s.order → OrderBij n (decomposeLoop t' n l s).1.order := by
    intro t' l
    induction l with
    | nil => intro s _ hb; exact hb
    | cons p rest ih =>
      intro s hl hb
      cases hps : pivotStep t' n p s with
      | error e =>
        simp only [decomposeLoop, hps]
        exact hb
      | ok s' =>
        simp only [decomposeLoop, hps]
        refine ih s' (fun q hq => hl q (List.mem_cons_of_mem _ hq)) ?_
        cases hib : index_best s.matrix t' p n with
        | error e =>
          simp only [pivotStep, hib] at hps
          exact Except.noConfusion hps
        | ok r =>
          by_cases hrp : r = p
          · rw [((hstep t' p s s' hps).1 (hrp ▸ hib)).2]
            exact hb
          · rw [((hstep t' p s s' hps).2 r hib hrp).2]
            have hpn : p < n := hl p (List.mem_cons_self _ _)
            have hrn : r < n :=
              (index_best_ok_bounds s.matrix t' p n r hib).2 hpn
            exact OrderBij_oswap n s.order hb p r hpn hrn
  refine ⟨hstep tol, hcount tol, hbij tol, ?_⟩
  intro m
  constructor
  · rw [decompose]
    refine hbij _ (List.range n) (initSt m)
      (fun q hq => List.mem_range.mp hq) ?_
    exact ⟨fun a ha => ha, fun a _ b _ h => h⟩
  · rw [decompose, hcount]
    rw [show (initSt m).swaps = 0 from rfl, Nat.zero_add]

/-- C5 witness: one pivot step on `[[0,0],[0,1]]` (which swaps rows 0 and
1) keeps the permutation a bijection of `[0, 2)`. -/
theorem c5_witness :
    OrderBij 2 (decomposeLoop (1/2) 2 [0] (initSt zrMat)).1.order :=
  (c5_swap_count_and_permutation (1/2) 2).2.2.1 [0] (initSt zrMat)
    (by decide) (by decide)

end LU
